import Mathlib

/-!
Shallow embedding of the zk-ss CLI core (Secret Santa protocol client) and
proofs about it.

The embedded code comes from:
- the 8-field ECIES crypto service (`encryptDeliveryData`, `decryptDeliveryData`,
  `deriveAesKeyAndIv`, `packBytesToField`, `extractBytesFromField`,
  `isEncryptedDataEmpty`);
- the cyclic receiver-slot assignment in `claimAsReceiver`
  (`(senderSlot % participantCount) + 1`);
- the phase guards of the player commands (`enroll`, `registerAsSender`,
  `claimAsReceiver`);
- the passphrase-to-secret-key derivation in the wallet service
  (`passphraseToSecretKey`).

Machine integers and field elements are modelled as `Nat` with explicit
reductions (`% 256` for byte stores, `% frModulus` for field reductions).
Byte buffers are `List Nat` whose elements are below 256.  External
cryptographic primitives (Grumpkin scalar multiplication, SHA-256,
AES-128-CBC) are not code of this repository; they are passed in as a
`Prims` record of plain functions, and the theorems assume only the
algebraic facts the code's correctness rests on (ECDH commutativity and
CBC round-trip on block-aligned input).  Fallible code returns `Except`.
-/

namespace ZkSS

/-- The BN254 scalar-field modulus: the modulus of the `Fr` field-element type
used for on-chain values (Aztec's `Fr.MODULUS`). -/
def frModulus : Nat :=
  21888242871839275222246405745257275088548364400416034343698204186575808495617

/-- Big-endian interpretation of a byte buffer as an unsigned integer
(models `toBigIntBE` on a `Buffer`). -/
def bytesToNatBE (bs : List Nat) : Nat :=
  bs.foldl (fun acc b => acc * 256 + b) 0

/-- Big-endian encoding of an unsigned integer into exactly `k` bytes
(models writing a bigint into a fixed-size `Buffer`). -/
def natToBytesBE : Nat → Nat → List Nat
  | 0, _ => []
  | k + 1, n => natToBytesBE k (n / 256) ++ [n % 256]

/-- `Fr.toBuffer`: the 32-byte big-endian encoding of a field element. -/
def frToBuffer (n : Nat) : List Nat := natToBytesBE 32 n

/-- `Fr.fromBufferReduce`: read a buffer as a big-endian integer and reduce it
modulo the field modulus. -/
def frFromBufferReduce (bs : List Nat) : Nat := bytesToNatBE bs % frModulus

/-- `arr.slice(start, stop)` on a typed array: the elements from index `start`
(inclusive) to `stop` (exclusive), clamped to the array bounds. -/
def sliceList (bs : List Nat) (start stop : Nat) : List Nat :=
  (bs.drop start).take (stop - start)

/-- `buf.set(data, pos)`: overwrite `buf` with `data` starting at index `pos`
(the call sites only use in-bounds writes). -/
def bufferSet (buf data : List Nat) (pos : Nat) : List Nat :=
  buf.take pos ++ data ++ buf.drop (pos + data.length)

/-- A Grumpkin curve point as the crypto service sees it: `x`, `y` coordinates
(field-element values) and an `is_infinite` flag. -/
structure Point where
  x : Nat
  y : Nat
  is_infinite : Bool
deriving DecidableEq, Repr

/-- The 8-field wire format of an encrypted delivery payload:
`[ephemeral pubkey x, ephemeral pubkey y, cipher fields 2..7]`. -/
structure EncryptedPayload where
  f0 : Nat
  f1 : Nat
  f2 : Nat
  f3 : Nat
  f4 : Nat
  f5 : Nat
  f6 : Nat
  f7 : Nat
deriving DecidableEq, Repr

/-- The external cryptographic primitives the crypto service calls
(`@aztec/foundation`); none of them is code of this repository, so they are
parameters of the embedding.  `smul s P` is scalar multiplication on the
Grumpkin curve (both `Grumpkin.mul` and `deriveEcdhSharedSecret` perform it);
`gen` is `Grumpkin.generator`; `aesEncryptCBC data iv key` and
`aesDecryptCBCKeepPadding data iv key` are AES-128-CBC. -/
structure Prims where
  smul : Nat → Point → Point
  gen : Point
  sha256 : List Nat → List Nat
  aesEncryptCBC : List Nat → List Nat → List Nat → List Nat
  aesDecryptCBCKeepPadding : List Nat → List Nat → List Nat → List Nat

/-- `CIPHERTEXT_SIZE`: 7 AES blocks = 112 bytes of ciphertext. -/
def CIPHERTEXT_SIZE : Nat := 112

/-- `MAX_PLAINTEXT_SIZE`: 112 - 1 length byte = 111 bytes. -/
def MAX_PLAINTEXT_SIZE : Nat := 111

/-- `BYTES_PER_FIELD`: 31 usable bytes per field element. -/
def BYTES_PER_FIELD : Nat := 31

/-- `deriveAesKeyAndIv`: SHA256(sharedSecret.x || sharedSecret.y); the first 16
bytes are the AES key and the last 16 bytes (`slice(16, 32)`) the IV. -/
def deriveAesKeyAndIv (sha : List Nat → List Nat) (sharedSecret : Point) :
    List Nat × List Nat :=
  let combined := frToBuffer sharedSecret.x ++ frToBuffer sharedSecret.y
  let hashArray := sha combined
  (hashArray.take 16, (hashArray.drop 16).take 16)

/-- The `packBytesToField` helper of `encryptDeliveryData`: take
`cipherArray.slice(offset, min(offset+length, cipherArray.length))`, right-align
it at position `32 - length` of a zeroed 32-byte buffer, and reduce the buffer
into a field element. -/
def packBytesToField (cipherArray : List Nat) (offset length : Nat) : Nat :=
  let stop := min (offset + length) cipherArray.length
  let actual := sliceList cipherArray offset stop
  frFromBufferReduce (bufferSet (List.replicate 32 0) actual (32 - length))

/-- The `extractBytesFromField` helper of `decryptDeliveryData`: the last
`length` bytes of the 32-byte big-endian encoding of the field value
(`new Fr(fieldValue).toBuffer()` then `slice(32 - length)`). -/
def extractBytesFromField (fieldValue : Nat) (length : Nat) : List Nat :=
  (frToBuffer (fieldValue % frModulus)).drop (32 - length)

/-- Typed rendering of the two `throw new Error(...)` sites of the crypto
service. -/
inductive CryptoError where
  | oversize (got : Nat)
  | invalidLength (got : Nat)
deriving DecidableEq, Repr

/-- The ECDH shared point computed during encryption:
`deriveEcdhSharedSecret(ephemeralPrivateKey, recipientPoint)` where
`recipientPoint` is rebuilt from the recipient's raw coordinates via the `Fr`
constructor. -/
def encryptSharedSecret (P : Prims) (eph : Nat) (recipientPubKey : Point) :
    Point :=
  P.smul eph
    ⟨recipientPubKey.x % frModulus, recipientPubKey.y % frModulus,
      recipientPubKey.is_infinite⟩

/-- `encryptDeliveryData` over the plaintext's UTF-8 bytes.  The ephemeral
scalar `eph` (drawn by `Fq.random()` in the source) is an explicit input.
Rejects plaintexts longer than 111 bytes; otherwise builds the 112-byte frame
`[length byte] ++ plaintext ++ zero padding`, encrypts it, and packs the
ephemeral public key and the first 112 ciphertext bytes into 8 fields
(fields 6 and 7 stay zero). -/
def encryptDeliveryData (P : Prims) (eph : Nat) (plaintextBytes : List Nat)
    (recipientPubKey : Point) : Except CryptoError EncryptedPayload :=
  if plaintextBytes.length > MAX_PLAINTEXT_SIZE then
    .error (.oversize plaintextBytes.length)
  else
    let ephemeralPublicKey := P.smul eph P.gen
    let sharedSecret := encryptSharedSecret P eph recipientPubKey
    let kiv := deriveAesKeyAndIv P.sha256 sharedSecret
    let paddedPlaintext :=
      [plaintextBytes.length % 256] ++ plaintextBytes ++
        List.replicate (CIPHERTEXT_SIZE - 1 - plaintextBytes.length) 0
    let cipherArray := P.aesEncryptCBC paddedPlaintext kiv.2 kiv.1
    .ok
      { f0 := ephemeralPublicKey.x % frModulus
        f1 := ephemeralPublicKey.y % frModulus
        f2 := packBytesToField cipherArray 0 31
        f3 := packBytesToField cipherArray 31 31
        f4 := packBytesToField cipherArray 62 31
        f5 := packBytesToField cipherArray 93 19
        f6 := 0
        f7 := 0 }

/-- The ECDH shared point computed during decryption:
`deriveEcdhSharedSecret(privateKey, Point(fields[0], fields[1], false))`. -/
def decryptSharedSecret (P : Prims) (d : EncryptedPayload) (privateKey : Nat) :
    Point :=
  P.smul privateKey ⟨d.f0 % frModulus, d.f1 % frModulus, false⟩

/-- The 112-byte ciphertext reassembled by `decryptDeliveryData`:
31 bytes from each of fields 2-4 and 19 bytes from field 5, written at offsets
0, 31, 62 and 93 of a 112-byte buffer. -/
def reconstructCiphertext (d : EncryptedPayload) : List Nat :=
  extractBytesFromField d.f2 31 ++ extractBytesFromField d.f3 31 ++
    extractBytesFromField d.f4 31 ++ extractBytesFromField d.f5 19

/-- The decrypted 112-byte frame inside `decryptDeliveryData`:
`aes.decryptBufferCBCKeepPadding(ciphertext, iv, key)` with the key and IV
derived from the decryption-side shared secret. -/
def decryptedFrame (P : Prims) (d : EncryptedPayload) (privateKey : Nat) :
    List Nat :=
  let kiv := deriveAesKeyAndIv P.sha256 (decryptSharedSecret P d privateKey)
  P.aesDecryptCBCKeepPadding (reconstructCiphertext d) kiv.2 kiv.1

/-- `decryptDeliveryData` over the 8-field payload, returning the recovered
plaintext bytes.  Reads `decrypted[0]` as the length byte, throws if it
exceeds 111, and otherwise slices `decrypted.subarray(1, 1 + length)`. -/
def decryptDeliveryData (P : Prims) (d : EncryptedPayload) (privateKey : Nat) :
    Except CryptoError (List Nat) :=
  let decrypted := decryptedFrame P d privateKey
  let lengthByte := decrypted.headD 0
  if lengthByte > MAX_PLAINTEXT_SIZE then .error (.invalidLength lengthByte)
  else .ok ((decrypted.drop 1).take lengthByte)

/-- `isEncryptedDataEmpty`: `data.every((v) => v === 0n)` over the 8 fields. -/
def isEncryptedDataEmpty (d : EncryptedPayload) : Bool :=
  d.f0 == 0 && d.f1 == 0 && d.f2 == 0 && d.f3 == 0 &&
    d.f4 == 0 && d.f5 == 0 && d.f6 == 0 && d.f7 == 0

/-- The cyclic receiver-slot assignment computed by `claimAsReceiver`:
`(senderSlot % participantCount) + 1`. -/
def receiverSlot (senderSlot participantCount : Nat) : Nat :=
  senderSlot % participantCount + 1

/-- The game phases (the `PHASE` constants of the contract service, values
1 to 4). -/
inductive Phase where
  | enrollment
  | senderRegistr
  | receiverClaim
  | completed
deriving DecidableEq, Repr

/-- The numeric value of a phase as stored by the contract service
(`ENROLLMENT: 1, SENDER_REGISTRATION: 2, RECEIVER_CLAIM: 3, COMPLETED: 4`). -/
def Phase.toNat : Phase → Nat
  | .enrollment => 1
  | .senderRegistr => 2
  | .receiverClaim => 3
  | .completed => 4

/-- The observable work a player command performs after its phase guard:
local crypto work and ledger-mutating transactions.  An empty trace means the
command did no encryption, packing, or ledger mutation. -/
inductive Effect where
  | deriveEncryptionKey
  | encryptPayload
  | ledgerWrite (callName : String)
deriving DecidableEq, Repr

/-- Typed rendering of the player-command failure paths. -/
inductive FlowError where
  | wrongPhase (current : Phase)
  | slotAlreadyClaimed (slot : Nat)
  | slotHasNoSender (slot : Nat)
  | encryptionFailed (e : CryptoError)
deriving DecidableEq, Repr

/-- The `enroll` command: guarded on the ENROLLMENT phase, then a single
`enroll` transaction. -/
def enrollFlow (phase : Phase) : List Effect × Except FlowError Unit :=
  if phase ≠ Phase.enrollment then ([], .error (.wrongPhase phase))
  else ([Effect.ledgerWrite "enroll"], .ok ())

/-- The `registerAsSender` command: guarded on the SENDER_REGISTRATION phase
first, then the slot-availability check, then key derivation and the
`register_as_sender` transaction. -/
def registerAsSenderFlow (phase : Phase) (slot : Nat) (isClaimed : Bool) :
    List Effect × Except FlowError Unit :=
  if phase ≠ Phase.senderRegistr then ([], .error (.wrongPhase phase))
  else if isClaimed then ([], .error (.slotAlreadyClaimed slot))
  else
    ([Effect.deriveEncryptionKey, Effect.ledgerWrite "register_as_sender"],
      .ok ())

/-- The `claimAsReceiver` command: guarded on the RECEIVER_CLAIM phase first,
then the target-slot check, then encryption of the delivery address and the
`claim_as_receiver` transaction. -/
def claimAsReceiverFlow (P : Prims) (phase : Phase) (targetSlot : Nat)
    (isClaimed : Bool) (eph : Nat) (deliveryAddress : List Nat)
    (senderKey : Point) : List Effect × Except FlowError Unit :=
  if phase ≠ Phase.receiverClaim then ([], .error (.wrongPhase phase))
  else if !isClaimed then ([], .error (.slotHasNoSender targetSlot))
  else
    match encryptDeliveryData P eph deliveryAddress senderKey with
    | .error e => ([Effect.encryptPayload], .error (.encryptionFailed e))
    | .ok _ =>
        ([Effect.encryptPayload, Effect.ledgerWrite "claim_as_receiver"],
          .ok ())

/-- Number of UTF-16 code units of a character (what JavaScript's
`String.prototype.length` and `padEnd` count). -/
def utf16Units (c : Char) : Nat := if c.toNat < 65536 then 1 else 2

/-- UTF-16 length of a string, modelled as a list of Unicode characters. -/
def utf16Length (s : List Char) : Nat := (s.map utf16Units).sum

/-- Standard UTF-8 encoding of one character (what
`Buffer.from(s, "utf-8")` produces per code point). -/
def utf8EncodeChar (c : Char) : List Nat :=
  let n := c.toNat
  if n < 128 then [n]
  else if n < 2048 then [192 + n / 64, 128 + n % 64]
  else if n < 65536 then [224 + n / 4096, 128 + n / 64 % 64, 128 + n % 64]
  else [240 + n / 262144, 128 + n / 4096 % 64, 128 + n / 64 % 64, 128 + n % 64]

/-- UTF-8 byte encoding of a string. -/
def utf8Bytes (s : List Char) : List Nat := (s.map utf8EncodeChar).flatten

/-- `passphrase.padEnd(32, "#")`: append `'#'` characters until the string is
32 UTF-16 code units long. -/
def padEnd32 (s : List Char) : List Char :=
  s ++ List.replicate (32 - utf16Length s) '#'

/-- `passphraseToSecretKey`: pad the passphrase with `'#'` to 32 characters,
take its UTF-8 bytes, and reduce them into a field element with
`Fr.fromBufferReduce`. -/
def passphraseToSecretKey (s : List Char) : Nat :=
  frFromBufferReduce (utf8Bytes (padEnd32 s))

/-- A small executable instance of the external primitives, used to evaluate
the theorems at concrete inputs: scalar multiplication acts coordinatewise
modulo the field modulus (so it commutes, like the real curve's), the digest
is a fixed 32-byte string, and the block cipher appends 16 padding bytes on
encryption and strips nothing on decryption. -/
def toyPrims : Prims where
  smul := fun s Q => ⟨s * Q.x % frModulus, s * Q.y % frModulus, false⟩
  gen := ⟨1, 2, false⟩
  sha256 := fun _ => List.replicate 16 7 ++ List.replicate 16 9
  aesEncryptCBC := fun data _ _ => data ++ List.replicate 16 37
  aesDecryptCBCKeepPadding := fun data _ _ => data

/-! ## Byte-encoding lemmas -/

theorem bytesToNatBE_snoc (l : List Nat) (b : Nat) :
    bytesToNatBE (l ++ [b]) = bytesToNatBE l * 256 + b := by
  simp [bytesToNatBE, List.foldl_append]

theorem bytesToNatBE_lt (l : List Nat) (h : ∀ b ∈ l, b < 256) :
    bytesToNatBE l < 256 ^ l.length := by
  induction l using List.reverseRecOn with
  | nil => simp [bytesToNatBE]
  | append_singleton l b ih =>
    have hb : b < 256 := h b (by simp)
    have hl : bytesToNatBE l < 256 ^ l.length := ih fun x hx => h x (by simp [hx])
    rw [bytesToNatBE_snoc]
    simp only [List.length_append, List.length_singleton]
    calc bytesToNatBE l * 256 + b
        ≤ (256 ^ l.length - 1) * 256 + b := by
          have : bytesToNatBE l ≤ 256 ^ l.length - 1 := Nat.le_sub_one_of_lt hl
          exact Nat.add_le_add_right (Nat.mul_le_mul_right 256 this) b
      _ < 256 ^ (l.length + 1) := by
          have hpos : 1 ≤ 256 ^ l.length := Nat.one_le_pow _ _ (by norm_num)
          rw [Nat.pow_succ]
          omega

theorem natToBytesBE_length (k n : Nat) : (natToBytesBE k n).length = k := by
  induction k generalizing n with
  | zero => rfl
  | succ k ih => simp [natToBytesBE, ih]

theorem natToBytesBE_bytesToNatBE (l : List Nat) (h : ∀ b ∈ l, b < 256) :
    natToBytesBE l.length (bytesToNatBE l) = l := by
  induction l using List.reverseRecOn with
  | nil => rfl
  | append_singleton l b ih =>
    have hb : b < 256 := h b (by simp)
    have ihl := ih fun x hx => h x (by simp [hx])
    rw [bytesToNatBE_snoc]
    simp only [List.length_append, List.length_singleton, natToBytesBE]
    have hdiv : (bytesToNatBE l * 256 + b) / 256 = bytesToNatBE l := by omega
    have hmod : (bytesToNatBE l * 256 + b) % 256 = b := by omega
    rw [hdiv, hmod, ihl]

theorem bytesToNatBE_replicate_zero_append (m : Nat) (l : List Nat) :
    bytesToNatBE (List.replicate m 0 ++ l) = bytesToNatBE l := by
  induction m with
  | zero => simp
  | succ m ih =>
    simpa [bytesToNatBE, List.replicate_succ] using ih

theorem pow_256_31_lt_frModulus : 256 ^ 31 < frModulus := by
  norm_num [frModulus]

/-! ## Cyclic-assignment lemmas -/

theorem receiverSlot_iterate (N : Nat) (hN : 2 ≤ N) (s : Nat) (h1 : 1 ≤ s)
    (h2 : s ≤ N) (k : Nat) :
    (fun x => receiverSlot x N)^[k] s = (s - 1 + k) % N + 1 := by
  induction k with
  | zero =>
    have hmod : (s - 1) % N = s - 1 := Nat.mod_eq_of_lt (by omega)
    simp only [Function.iterate_zero, id_eq, Nat.add_zero, hmod]
    omega
  | succ k ih =>
    rw [Function.iterate_succ_apply', ih]
    simp only [receiverSlot]
    have h1N : 1 % N = 1 := Nat.mod_eq_of_lt (by omega)
    rw [show s - 1 + (k + 1) = s - 1 + k + 1 by omega,
      Nat.add_mod (s - 1 + k) 1 N, h1N]

/-- C2: for every participant count `N ≥ 2`, the receiver-slot map
`s ↦ (s % N) + 1` computed by `claimAsReceiver` maps `[1,N]` into `[1,N]`,
has no fixed point there, is injective and surjective on `[1,N]` (a total
bijection), returns every `s` to itself after `N` applications, and never
earlier — a single `N`-cycle. -/
theorem claim_C2 (N : Nat) (hN : 2 ≤ N) :
    (∀ s, 1 ≤ s → s ≤ N → 1 ≤ receiverSlot s N ∧ receiverSlot s N ≤ N) ∧
    (∀ s, 1 ≤ s → s ≤ N → receiverSlot s N ≠ s) ∧
    (∀ s t, 1 ≤ s → s ≤ N → 1 ≤ t → t ≤ N →
      receiverSlot s N = receiverSlot t N → s = t) ∧
    (∀ t, 1 ≤ t → t ≤ N → ∃ s, 1 ≤ s ∧ s ≤ N ∧ receiverSlot s N = t) ∧
    (∀ s, 1 ≤ s → s ≤ N → (fun x => receiverSlot x N)^[N] s = s) ∧
    (∀ s k, 1 ≤ s → s ≤ N → 1 ≤ k → k < N →
      (fun x => receiverSlot x N)^[k] s ≠ s) := by
  have hN0 : 0 < N := by omega
  refine ⟨?_, ?_, ?_, ?_, ?_, ?_⟩
  · intro s _ _
    have := Nat.mod_lt s hN0
    unfold receiverSlot
    omega
  · intro s h1 h2
    rcases Nat.lt_or_ge s N with h | h
    · have hmod : s % N = s := Nat.mod_eq_of_lt h
      unfold receiverSlot
      omega
    · have hs : s = N := by omega
      subst hs
      unfold receiverSlot
      rw [Nat.mod_self]
      omega
  · intro s t hs1 hs2 ht1 ht2 heq
    unfold receiverSlot at heq
    rcases Nat.lt_or_ge s N with hs | hs <;> rcases Nat.lt_or_ge t N with ht | ht
    · have := Nat.mod_eq_of_lt hs
      have := Nat.mod_eq_of_lt ht
      omega
    · have := Nat.mod_eq_of_lt hs
      have htN : t = N := by omega
      subst htN
      rw [Nat.mod_self] at heq
      omega
    · have := Nat.mod_eq_of_lt ht
      have hsN : s = N := by omega
      subst hsN
      rw [Nat.mod_self] at heq
      omega
    · omega
  · intro t ht1 ht2
    rcases Nat.eq_or_lt_of_le ht1 with h | h
    · refine ⟨N, by omega, le_refl N, ?_⟩
      unfold receiverSlot
      rw [Nat.mod_self]
      omega
    · refine ⟨t - 1, by omega, by omega, ?_⟩
      have hmod : (t - 1) % N = t - 1 := Nat.mod_eq_of_lt (by omega)
      unfold receiverSlot
      omega
  · intro s h1 h2
    rw [receiverSlot_iterate N hN s h1 h2 N, Nat.add_mod_right,
      Nat.mod_eq_of_lt (by omega : s - 1 < N)]
    omega
  · intro s k h1 h2 hk1 hk2 heq
    rw [receiverSlot_iterate N hN s h1 h2 k] at heq
    have hval : (s - 1 + k) % N = s - 1 := by omega
    rcases Nat.lt_or_ge (s - 1 + k) N with h | h
    · rw [Nat.mod_eq_of_lt h] at hval
      omega
    · have hsub : (s - 1 + k) % N = (s - 1 + k - N) % N :=
        (Nat.mod_eq_sub_mod h)
      have hlt : s - 1 + k - N < N := by omega
      rw [hsub, Nat.mod_eq_of_lt hlt] at hval
      omega

/-- Evaluation of C2 at `N = 3`. -/
theorem claim_C2_witness :
    (2 ≤ 3) ∧
    ((∀ s, 1 ≤ s → s ≤ 3 → 1 ≤ receiverSlot s 3 ∧ receiverSlot s 3 ≤ 3) ∧
    (∀ s, 1 ≤ s → s ≤ 3 → receiverSlot s 3 ≠ s) ∧
    (∀ s t, 1 ≤ s → s ≤ 3 → 1 ≤ t → t ≤ 3 →
      receiverSlot s 3 = receiverSlot t 3 → s = t) ∧
    (∀ t, 1 ≤ t → t ≤ 3 → ∃ s, 1 ≤ s ∧ s ≤ 3 ∧ receiverSlot s 3 = t) ∧
    (∀ s, 1 ≤ s → s ≤ 3 → (fun x => receiverSlot x 3)^[3] s = s) ∧
    (∀ s k, 1 ≤ s → s ≤ 3 → 1 ≤ k → k < 3 →
      (fun x => receiverSlot x 3)^[k] s ≠ s)) :=
  ⟨by decide, claim_C2 3 (by decide)⟩

/-- C8: `isEncryptedDataEmpty` returns `true` exactly when all 8 fields of the
payload are zero, and hence `false` whenever some field is nonzero. -/
theorem claim_C8 (d : EncryptedPayload) :
    isEncryptedDataEmpty d = true ↔
      d.f0 = 0 ∧ d.f1 = 0 ∧ d.f2 = 0 ∧ d.f3 = 0 ∧
        d.f4 = 0 ∧ d.f5 = 0 ∧ d.f6 = 0 ∧ d.f7 = 0 := by
  simp [isEncryptedDataEmpty, and_assoc]

/-- C9: `decryptDeliveryData` never reads payload fields 6 and 7 — two
payloads that agree on fields 0 through 5 decrypt identically under any
private scalar. -/
theorem claim_C9 (P : Prims) (d1 d2 : EncryptedPayload) (priv : Nat)
    (h0 : d1.f0 = d2.f0) (h1 : d1.f1 = d2.f1) (h2 : d1.f2 = d2.f2)
    (h3 : d1.f3 = d2.f3) (h4 : d1.f4 = d2.f4) (h5 : d1.f5 = d2.f5) :
    decryptDeliveryData P d1 priv = decryptDeliveryData P d2 priv := by
  cases d1
  cases d2
  simp only at h0 h1 h2 h3 h4 h5
  subst h0 h1 h2 h3 h4 h5
  rfl

/-- Evaluation of C9 on two payloads that differ only in fields 6 and 7. -/
theorem claim_C9_witness :
    decryptDeliveryData toyPrims ⟨1, 2, 3, 4, 5, 6, 7, 8⟩ 3 =
      decryptDeliveryData toyPrims ⟨1, 2, 3, 4, 5, 6, 99, 100⟩ 3 :=
  claim_C9 toyPrims ⟨1, 2, 3, 4, 5, 6, 7, 8⟩ ⟨1, 2, 3, 4, 5, 6, 99, 100⟩ 3
    rfl rfl rfl rfl rfl rfl

/-- C4: `encryptDeliveryData` fails with the oversize error exactly when the
plaintext exceeds 111 bytes; for at most 111 bytes it succeeds (so in
particular it never raises the oversize error). -/
theorem claim_C4 (P : Prims) (eph : Nat) (plaintextBytes : List Nat)
    (pub : Point) :
    (plaintextBytes.length > 111 →
      encryptDeliveryData P eph plaintextBytes pub =
        .error (.oversize plaintextBytes.length)) ∧
    (plaintextBytes.length ≤ 111 →
      ∃ pl, encryptDeliveryData P eph plaintextBytes pub = .ok pl) := by
  constructor
  · intro h
    simp only [encryptDeliveryData, MAX_PLAINTEXT_SIZE]
    rw [if_pos h]
  · intro h
    simp only [encryptDeliveryData, MAX_PLAINTEXT_SIZE]
    rw [if_neg (by omega : ¬plaintextBytes.length > 111)]
    exact ⟨_, rfl⟩

/-- Evaluation of C4: a 112-byte plaintext is rejected with the oversize
error, and a 111-byte plaintext is accepted. -/
theorem claim_C4_witness :
    encryptDeliveryData toyPrims 2 (List.replicate 112 65) ⟨3, 6, false⟩ =
      .error (.oversize 112) ∧
    ∃ pl,
      encryptDeliveryData toyPrims 2 (List.replicate 111 65) ⟨3, 6, false⟩ =
        .ok pl :=
  ⟨(claim_C4 toyPrims 2 (List.replicate 112 65) ⟨3, 6, false⟩).1 (by decide),
    (claim_C4 toyPrims 2 (List.replicate 111 65) ⟨3, 6, false⟩).2 (by decide)⟩

/-- C5: `decryptDeliveryData` reads the first byte of the decrypted 112-byte
frame as a length: if it exceeds 111 the function fails with the typed
invalid-length error, and otherwise it returns exactly that many following
bytes. -/
theorem claim_C5 (P : Prims) (d : EncryptedPayload) (priv : Nat) :
    ((decryptedFrame P d priv).headD 0 > 111 →
      decryptDeliveryData P d priv =
        .error (.invalidLength ((decryptedFrame P d priv).headD 0))) ∧
    ((decryptedFrame P d priv).headD 0 ≤ 111 →
      decryptDeliveryData P d priv =
        .ok (((decryptedFrame P d priv).drop 1).take
          ((decryptedFrame P d priv).headD 0))) ∧
    ((decryptedFrame P d priv).length = 112 →
      (decryptedFrame P d priv).headD 0 ≤ 111 →
      (((decryptedFrame P d priv).drop 1).take
          ((decryptedFrame P d priv).headD 0)).length =
        (decryptedFrame P d priv).headD 0) := by
  refine ⟨?_, ?_, ?_⟩
  · intro h
    simp only [decryptDeliveryData, MAX_PLAINTEXT_SIZE]
    rw [if_pos h]
  · intro h
    simp only [decryptDeliveryData, MAX_PLAINTEXT_SIZE]
    rw [if_neg (by omega)]
  · intro hlen h
    simp only [List.length_take, List.length_drop, hlen]
    omega

/-- Evaluation of C5 on the all-zero payload: the decrypted frame starts with
length byte 0, so decryption succeeds with the empty plaintext. -/
theorem claim_C5_witness :
    (decryptedFrame toyPrims ⟨0, 0, 0, 0, 0, 0, 0, 0⟩ 3).headD 0 ≤ 111 ∧
    decryptDeliveryData toyPrims ⟨0, 0, 0, 0, 0, 0, 0, 0⟩ 3 =
      .ok (((decryptedFrame toyPrims ⟨0, 0, 0, 0, 0, 0, 0, 0⟩ 3).drop 1).take
        ((decryptedFrame toyPrims ⟨0, 0, 0, 0, 0, 0, 0, 0⟩ 3).headD 0)) :=
  ⟨by decide,
    (claim_C5 toyPrims ⟨0, 0, 0, 0, 0, 0, 0, 0⟩ 3).2.1 (by decide)⟩

/-- C7: a player action attempted outside its designated phase is rejected by
the phase guard with a wrong-phase error and an empty effect trace — no
encryption, key derivation, or ledger mutation happens.  In particular
`registerAsSender` in the ENROLLMENT or COMPLETED phase is rejected, and the
same guard shape holds for `enroll` and `claimAsReceiver`. -/
theorem claim_C7 (phase : Phase) (slot : Nat) (isClaimed : Bool) (P : Prims)
    (targetSlot : Nat) (targetClaimed : Bool) (eph : Nat)
    (deliveryAddress : List Nat) (senderKey : Point)
    (h : phase = Phase.enrollment ∨ phase = Phase.completed) :
    registerAsSenderFlow phase slot isClaimed =
      ([], .error (.wrongPhase phase)) ∧
    (∀ ph, ph ≠ Phase.senderRegistr →
      registerAsSenderFlow ph slot isClaimed =
        ([], .error (.wrongPhase ph))) ∧
    (∀ ph, ph ≠ Phase.enrollment →
      enrollFlow ph = ([], .error (.wrongPhase ph))) ∧
    (∀ ph, ph ≠ Phase.receiverClaim →
      claimAsReceiverFlow P ph targetSlot targetClaimed eph deliveryAddress
          senderKey =
        ([], .error (.wrongPhase ph))) := by
  refine ⟨?_, ?_, ?_, ?_⟩
  · rcases h with h | h <;> subst h <;> rfl
  · intro ph hph
    simp only [registerAsSenderFlow]
    rw [if_pos hph]
  · intro ph hph
    simp only [enrollFlow]
    rw [if_pos hph]
  · intro ph hph
    simp only [claimAsReceiverFlow]
    rw [if_pos hph]

/-- Evaluation of C7: `registerAsSender` attempted during ENROLLMENT is
rejected with a wrong-phase error and does no work. -/
theorem claim_C7_witness :
    registerAsSenderFlow Phase.enrollment 1 false =
      ([], .error (.wrongPhase Phase.enrollment)) :=
  (claim_C7 Phase.enrollment 1 false toyPrims 2 true 2 [72] ⟨3, 6, false⟩
    (Or.inl rfl)).1

/-! ## Passphrase-derivation lemmas -/

theorem utf16Units_le_utf8EncodeChar (c : Char) :
    utf16Units c ≤ (utf8EncodeChar c).length := by
  simp only [utf16Units, utf8EncodeChar]
  split_ifs <;> (simp_all; try omega)

theorem utf16Length_le_utf8Bytes (s : List Char) :
    utf16Length s ≤ (utf8Bytes s).length := by
  induction s with
  | nil => simp [utf16Length, utf8Bytes]
  | cons c s ih =>
    have hc : utf16Length (c :: s) = utf16Units c + utf16Length s := by
      simp [utf16Length]
    have hb : (utf8Bytes (c :: s)).length =
        (utf8EncodeChar c).length + (utf8Bytes s).length := by
      simp [utf8Bytes]
    rw [hc, hb]
    exact Nat.add_le_add (utf16Units_le_utf8EncodeChar c) ih

/-- C10: `passphraseToSecretKey` pads with `'#'` before reducing, so any
passphrase of UTF-8 length below 32 collides with itself extended by one
`'#'`: both produce the same secret key (hence the same derived account and
encryption keys), so the derivation is not injective. -/
theorem claim_C10 (s : List Char) (h : (utf8Bytes s).length < 32) :
    passphraseToSecretKey s = passphraseToSecretKey (s ++ ['#']) := by
  have hL : utf16Length s < 32 :=
    lt_of_le_of_lt (utf16Length_le_utf8Bytes s) h
  have hhash : utf16Units '#' = 1 := by decide
  have h16 : utf16Length (s ++ ['#']) = utf16Length s + 1 := by
    simp [utf16Length, hhash]
  have hpad : padEnd32 s = padEnd32 (s ++ ['#']) := by
    unfold padEnd32
    rw [h16, show 32 - utf16Length s = 32 - (utf16Length s + 1) + 1 by omega,
      List.replicate_succ]
    simp
  unfold passphraseToSecretKey
  rw [hpad]

/-- Evaluation of C10: the passphrases "abc" and "abc#" produce the same
secret key. -/
theorem claim_C10_witness :
    (utf8Bytes ['a', 'b', 'c']).length < 32 ∧
    passphraseToSecretKey ['a', 'b', 'c'] =
      passphraseToSecretKey (['a', 'b', 'c'] ++ ['#']) :=
  ⟨by decide, claim_C10 ['a', 'b', 'c'] (by decide)⟩

/-! ## Field packing lemmas -/

theorem packBytesToField_eq (c : List Nat) (offset len : Nat)
    (hoff : offset + len ≤ c.length) (hle : len ≤ 31)
    (hb : ∀ b ∈ c, b < 256) :
    packBytesToField c offset len = bytesToNatBE ((c.drop offset).take len) := by
  have hchunkb : ∀ b ∈ (c.drop offset).take len, b < 256 := fun b hbm =>
    hb b (List.mem_of_mem_drop (List.mem_of_mem_take hbm))
  have hchunklen : ((c.drop offset).take len).length = len := by
    simp [List.length_take, List.length_drop]
    omega
  have hlt : bytesToNatBE ((c.drop offset).take len) < frModulus := by
    calc bytesToNatBE ((c.drop offset).take len)
        < 256 ^ ((c.drop offset).take len).length :=
          bytesToNatBE_lt _ hchunkb
      _ ≤ 256 ^ 31 := by
          rw [hchunklen]
          exact Nat.pow_le_pow_right (by norm_num) hle
      _ < frModulus := pow_256_31_lt_frModulus
  simp only [packBytesToField, sliceList, bufferSet, frFromBufferReduce]
  rw [Nat.min_eq_left hoff,
    show offset + len - offset = len by omega,
    List.take_replicate, Nat.min_eq_left (by omega : 32 - len ≤ 32),
    hchunklen,
    show 32 - len + len = 32 by omega,
    List.drop_replicate,
    show (32 : Nat) - 32 = 0 by omega]
  simp only [List.replicate_zero, List.append_nil,
    bytesToNatBE_replicate_zero_append]
  exact Nat.mod_eq_of_lt hlt

theorem extractBytesFromField_pack (c : List Nat) (offset len : Nat)
    (hoff : offset + len ≤ c.length) (hle : len ≤ 31)
    (hb : ∀ b ∈ c, b < 256) :
    extractBytesFromField (packBytesToField c offset len) len =
      (c.drop offset).take len := by
  have hchunkb : ∀ b ∈ (c.drop offset).take len, b < 256 := fun b hbm =>
    hb b (List.mem_of_mem_drop (List.mem_of_mem_take hbm))
  have hchunklen : ((c.drop offset).take len).length = len := by
    simp [List.length_take, List.length_drop]
    omega
  have hlt : bytesToNatBE ((c.drop offset).take len) < frModulus := by
    calc bytesToNatBE ((c.drop offset).take len)
        < 256 ^ ((c.drop offset).take len).length :=
          bytesToNatBE_lt _ hchunkb
      _ ≤ 256 ^ 31 := by
          rw [hchunklen]
          exact Nat.pow_le_pow_right (by norm_num) hle
      _ < frModulus := pow_256_31_lt_frModulus
  rw [packBytesToField_eq c offset len hoff hle hb]
  simp only [extractBytesFromField, frToBuffer, Nat.mod_eq_of_lt hlt]
  have hbufb : ∀ b ∈ List.replicate (32 - len) 0 ++ (c.drop offset).take len,
      b < 256 := by
    intro b hbm
    rcases List.mem_append.mp hbm with hbm | hbm
    · rw [List.eq_of_mem_replicate hbm]
      norm_num
    · exact hchunkb b hbm
  have hbuflen :
      (List.replicate (32 - len) 0 ++ (c.drop offset).take len).length = 32 := by
    simp [hchunklen]
    omega
  have hval : bytesToNatBE ((c.drop offset).take len) =
      bytesToNatBE (List.replicate (32 - len) 0 ++ (c.drop offset).take len) :=
    (bytesToNatBE_replicate_zero_append _ _).symm
  have key := natToBytesBE_bytesToNatBE
    (List.replicate (32 - len) 0 ++ (c.drop offset).take len) hbufb
  rw [hbuflen] at key
  rw [hval, key]
  have hdl :=
    List.drop_left (List.replicate (32 - len) 0) ((c.drop offset).take len)
  rw [List.length_replicate] at hdl
  exact hdl

theorem reconstruct_of_pack (c : List Nat) (hc : 112 ≤ c.length)
    (hb : ∀ b ∈ c, b < 256) (x0 x1 x6 x7 : Nat) :
    reconstructCiphertext
      ⟨x0, x1, packBytesToField c 0 31, packBytesToField c 31 31,
        packBytesToField c 62 31, packBytesToField c 93 19, x6, x7⟩ =
      c.take 112 := by
  simp only [reconstructCiphertext]
  rw [extractBytesFromField_pack c 0 31 (by omega) (by omega) hb,
    extractBytesFromField_pack c 31 31 (by omega) (by omega) hb,
    extractBytesFromField_pack c 62 31 (by omega) (by omega) hb,
    extractBytesFromField_pack c 93 19 (by omega) (by omega) hb,
    List.drop_zero,
    show (112 : Nat) = 31 + (31 + (31 + 19)) by norm_num,
    List.take_add, List.take_add, List.take_add, List.drop_drop,
    List.drop_drop]
  norm_num [List.append_assoc]

/-- C3: for every 112-byte ciphertext, the four packed fields are exactly the
big-endian values of bytes 0-30, 31-61, 62-92 and 93-111 (right-aligned, at
most 31 bytes per field), the extraction performed by `decryptDeliveryData`
reconstructs the identical 112 bytes, and every encryption output has fields
6 and 7 equal to zero. -/
theorem claim_C3 (c : List Nat) (hc : c.length = 112)
    (hb : ∀ b ∈ c, b < 256) :
    packBytesToField c 0 31 = bytesToNatBE (sliceList c 0 31) ∧
    packBytesToField c 31 31 = bytesToNatBE (sliceList c 31 62) ∧
    packBytesToField c 62 31 = bytesToNatBE (sliceList c 62 93) ∧
    packBytesToField c 93 19 = bytesToNatBE (sliceList c 93 112) ∧
    reconstructCiphertext
      ⟨0, 0, packBytesToField c 0 31, packBytesToField c 31 31,
        packBytesToField c 62 31, packBytesToField c 93 19, 0, 0⟩ = c ∧
    (∀ (P : Prims) (eph : Nat) (pt : List Nat) (pub : Point)
      (pl : EncryptedPayload),
      encryptDeliveryData P eph pt pub = .ok pl → pl.f6 = 0 ∧ pl.f7 = 0) := by
  refine ⟨?_, ?_, ?_, ?_, ?_, ?_⟩
  · rw [packBytesToField_eq c 0 31 (by omega) (by omega) hb]
    simp [sliceList]
  · rw [packBytesToField_eq c 31 31 (by omega) (by omega) hb]
    simp [sliceList]
  · rw [packBytesToField_eq c 62 31 (by omega) (by omega) hb]
    simp [sliceList]
  · rw [packBytesToField_eq c 93 19 (by omega) (by omega) hb]
    simp [sliceList]
  · rw [reconstruct_of_pack c (by omega) hb 0 0 0 0, ← hc, List.take_length]
  · intro P eph pt pub pl h
    simp only [encryptDeliveryData] at h
    split at h
    · exact absurd h (by simp)
    · have hpl := Except.ok.inj h
      rw [← hpl]
      exact ⟨rfl, rfl⟩

/-- Evaluation of C3: the bytes 0,1,...,111 survive the pack-extract round
trip byte for byte. -/
theorem claim_C3_witness :
    reconstructCiphertext
      ⟨0, 0, packBytesToField (List.range 112) 0 31,
        packBytesToField (List.range 112) 31 31,
        packBytesToField (List.range 112) 62 31,
        packBytesToField (List.range 112) 93 19, 0, 0⟩ = List.range 112 :=
  (claim_C3 (List.range 112) (by decide) (by decide)).2.2.2.2.1

/-- When the payload's first two fields store the ephemeral public point and
scalar multiplication commutes over the generator, the decryption-side shared
point equals the encryption-side shared point. -/
theorem sharedSecret_agree (P : Prims) (priv eph : Nat) (d : EncryptedPayload)
    (hE1 : (P.smul eph P.gen).x < frModulus)
    (hE2 : (P.smul eph P.gen).y < frModulus)
    (hE3 : (P.smul eph P.gen).is_infinite = false)
    (hpub1 : (P.smul priv P.gen).x < frModulus)
    (hpub2 : (P.smul priv P.gen).y < frModulus)
    (hcomm : P.smul priv (P.smul eph P.gen) = P.smul eph (P.smul priv P.gen))
    (h0 : d.f0 = (P.smul eph P.gen).x % frModulus)
    (h1 : d.f1 = (P.smul eph P.gen).y % frModulus) :
    decryptSharedSecret P d priv =
      encryptSharedSecret P eph (P.smul priv P.gen) := by
  unfold decryptSharedSecret encryptSharedSecret
  rw [h0, h1, Nat.mod_mod_of_dvd _ dvd_rfl, Nat.mod_mod_of_dvd _ dvd_rfl,
    Nat.mod_eq_of_lt hE1, Nat.mod_eq_of_lt hE2, Nat.mod_eq_of_lt hpub1,
    Nat.mod_eq_of_lt hpub2, ← hE3]
  exact hcomm

/-- C6: both sides derive the AES key and IV as the first and last 16 bytes of
the SHA-256 digest of the shared point's concatenated coordinate buffers, and
for a matching key pair the decryption-side shared point (and hence key/IV)
of an encrypted payload equals the encryption-side one, because
`priv * (eph * G) = eph * (priv * G)`. -/
theorem claim_C6 (P : Prims) (priv eph : Nat) (plaintextBytes : List Nat)
    (hlen : plaintextBytes.length ≤ 111)
    (hE1 : (P.smul eph P.gen).x < frModulus)
    (hE2 : (P.smul eph P.gen).y < frModulus)
    (hE3 : (P.smul eph P.gen).is_infinite = false)
    (hpub1 : (P.smul priv P.gen).x < frModulus)
    (hpub2 : (P.smul priv P.gen).y < frModulus)
    (hcomm : P.smul priv (P.smul eph P.gen) =
      P.smul eph (P.smul priv P.gen)) :
    Except.map (fun pl => decryptSharedSecret P pl priv)
        (encryptDeliveryData P eph plaintextBytes (P.smul priv P.gen)) =
      .ok (encryptSharedSecret P eph (P.smul priv P.gen)) ∧
    Except.map
        (fun pl => deriveAesKeyAndIv P.sha256 (decryptSharedSecret P pl priv))
        (encryptDeliveryData P eph plaintextBytes (P.smul priv P.gen)) =
      .ok (deriveAesKeyAndIv P.sha256
        (encryptSharedSecret P eph (P.smul priv P.gen))) ∧
    (∀ ss : Point, deriveAesKeyAndIv P.sha256 ss =
      ((P.sha256 (frToBuffer ss.x ++ frToBuffer ss.y)).take 16,
        ((P.sha256 (frToBuffer ss.x ++ frToBuffer ss.y)).drop 16).take 16)) := by
  have hnot : ¬plaintextBytes.length > MAX_PLAINTEXT_SIZE := by
    simp only [MAX_PLAINTEXT_SIZE]
    omega
  refine ⟨?_, ?_, fun ss => rfl⟩
  · simp only [encryptDeliveryData]
    rw [if_neg hnot]
    simp only [Except.map]
    rw [sharedSecret_agree P priv eph _ hE1 hE2 hE3 hpub1 hpub2 hcomm rfl rfl]
  · simp only [encryptDeliveryData]
    rw [if_neg hnot]
    simp only [Except.map]
    rw [sharedSecret_agree P priv eph _ hE1 hE2 hE3 hpub1 hpub2 hcomm rfl rfl]

/-- Evaluation of C6 with the executable primitives at `priv = 3`,
`eph = 2`. -/
theorem claim_C6_witness :
    Except.map (fun pl => decryptSharedSecret toyPrims pl 3)
        (encryptDeliveryData toyPrims 2 [72, 105]
          (toyPrims.smul 3 toyPrims.gen)) =
      .ok (encryptSharedSecret toyPrims 2 (toyPrims.smul 3 toyPrims.gen)) :=
  (claim_C6 toyPrims 3 2 [72, 105] (by decide) (by decide) (by decide)
    (by decide) (by decide) (by decide) (by decide)).1

/-- C1: for every plaintext of at most 111 bytes and every matching key pair
(`pub = priv * G`), decrypting the payload produced by `encryptDeliveryData`
with the private scalar via `decryptDeliveryData` recovers exactly the
original plaintext bytes.  The assumptions state the algebraic facts supplied
by the external primitives: well-formed coordinates of the curve points, ECDH
commutativity, and the AES-128-CBC round trip on a block-aligned 112-byte
input (the encryption output may carry extra padding; only its first 112
bytes are used). -/
theorem claim_C1 (P : Prims) (priv eph : Nat) (plaintextBytes : List Nat)
    (hlen : plaintextBytes.length ≤ 111)
    (hbytes : ∀ b ∈ plaintextBytes, b < 256)
    (hE1 : (P.smul eph P.gen).x < frModulus)
    (hE2 : (P.smul eph P.gen).y < frModulus)
    (hE3 : (P.smul eph P.gen).is_infinite = false)
    (hpub1 : (P.smul priv P.gen).x < frModulus)
    (hpub2 : (P.smul priv P.gen).y < frModulus)
    (hcomm : P.smul priv (P.smul eph P.gen) = P.smul eph (P.smul priv P.gen))
    (hAesLen : ∀ data iv key, data.length = 112 →
      112 ≤ (P.aesEncryptCBC data iv key).length)
    (hAesBytes : ∀ data iv key, (∀ b ∈ data, b < 256) →
      ∀ b ∈ P.aesEncryptCBC data iv key, b < 256)
    (hAesRound : ∀ data iv key, data.length = 112 →
      P.aesDecryptCBCKeepPadding ((P.aesEncryptCBC data iv key).take 112) iv
        key = data) :
    Except.bind (encryptDeliveryData P eph plaintextBytes (P.smul priv P.gen))
      (fun pl => decryptDeliveryData P pl priv) = Except.ok plaintextBytes := by
  have hnot : ¬plaintextBytes.length > MAX_PLAINTEXT_SIZE := by
    simp only [MAX_PLAINTEXT_SIZE]
    omega
  simp only [encryptDeliveryData]
  rw [if_neg hnot]
  simp only [Except.bind]
  set E := P.smul eph P.gen with hE
  set F := [plaintextBytes.length % 256] ++ plaintextBytes ++
    List.replicate (CIPHERTEXT_SIZE - 1 - plaintextBytes.length) 0 with hF
  set kiv := deriveAesKeyAndIv P.sha256
    (encryptSharedSecret P eph (P.smul priv P.gen)) with hkiv
  set C := P.aesEncryptCBC F kiv.2 kiv.1 with hC
  have hFlen : F.length = 112 := by
    rw [hF]
    simp only [List.length_append, List.length_singleton,
      List.length_replicate, CIPHERTEXT_SIZE]
    omega
  have hFbytes : ∀ b ∈ F, b < 256 := by
    rw [hF]
    intro b hb'
    simp only [List.mem_append, List.mem_singleton, List.mem_replicate] at hb'
    rcases hb' with (h | h) | h
    · subst h
      exact Nat.mod_lt _ (by norm_num)
    · exact hbytes b h
    · rcases h with ⟨-, h⟩
      subst h
      norm_num
  have hClen : 112 ≤ C.length := hAesLen F kiv.2 kiv.1 hFlen
  have hCbytes : ∀ b ∈ C, b < 256 := hAesBytes F kiv.2 kiv.1 hFbytes
  have hss := sharedSecret_agree P priv eph
    ⟨E.x % frModulus, E.y % frModulus, packBytesToField C 0 31,
      packBytesToField C 31 31, packBytesToField C 62 31,
      packBytesToField C 93 19, 0, 0⟩
    hE1 hE2 hE3 hpub1 hpub2 hcomm rfl rfl
  have hframe : decryptedFrame P
      ⟨E.x % frModulus, E.y % frModulus, packBytesToField C 0 31,
        packBytesToField C 31 31, packBytesToField C 62 31,
        packBytesToField C 93 19, 0, 0⟩ priv = F := by
    simp only [decryptedFrame]
    rw [hss, reconstruct_of_pack C hClen hCbytes (E.x % frModulus)
      (E.y % frModulus) 0 0]
    exact hAesRound F _ _ hFlen
  have hhead : F.headD 0 = plaintextBytes.length := by
    rw [hF]
    show plaintextBytes.length % 256 = plaintextBytes.length
    exact Nat.mod_eq_of_lt (by omega)
  have htake : (F.drop 1).take plaintextBytes.length = plaintextBytes := by
    rw [hF]
    show (plaintextBytes ++
      List.replicate (CIPHERTEXT_SIZE - 1 - plaintextBytes.length)
        0).take plaintextBytes.length = plaintextBytes
    exact List.take_left plaintextBytes _
  simp only [decryptDeliveryData, hframe, hhead]
  rw [if_neg hnot, htake]

/-- Evaluation of C1 with the executable primitives: the two-byte plaintext
"Hi" survives the encrypt-decrypt round trip under the key pair with private
scalar 3. -/
theorem claim_C1_witness :
    Except.bind
      (encryptDeliveryData toyPrims 2 [72, 105] (toyPrims.smul 3 toyPrims.gen))
      (fun pl => decryptDeliveryData toyPrims pl 3) = Except.ok [72, 105] :=
  claim_C1 toyPrims 3 2 [72, 105] (by decide) (by decide) (by decide)
    (by decide) (by decide) (by decide) (by decide) (by decide)
    (fun data iv key h => by simp [toyPrims, h])
    (fun data iv key hd => by
      intro b hb'
      simp only [toyPrims, List.mem_append, List.mem_replicate] at hb'
      rcases hb' with h | h
      · exact hd b h
      · rcases h with ⟨-, h⟩
        subst h
        norm_num)
    (fun data iv key h => by
      simp only [toyPrims]
      rw [← h, List.take_left])

end ZkSS
